import Mathlib

/-!
Verification development for the `acpid-plug` crate (`src/lib.rs`).

The crate exposes a stream `AcPlugEvents` over a unix socket: each
`poll_next` repeatedly calls tokio's `read_line` on a `BufReader`, and for
every complete line tests whether the trimmed text starts with
`ac_adapter` and ends with the digit `0` or `1`, emitting at most one
`Event` per real plug/unplug transition (deduplicated through the
`plugged` boolean).  The bootstrap (`with_socket`) seeds `plugged` from
one of two sysfs status files.

The embedding below models the byte stream at the level of `Char` lists
(the acpid protocol is ASCII; `str` indexing and `char` comparisons then
coincide with list operations).  The environment (the unix socket) is a
schedule of underlying read outcomes: a data chunk, end of stream, an
I/O error, or "no data yet" (`Poll::Pending`).

The semantics of tokio's `read_line` is part of the model because
`poll_next` is built directly on it: `read_line` moves the caller's
`String` into the future (`mem::take`) at construction, appends consumed
bytes to that private buffer, and writes the buffer back to the caller's
`String` only when it completes (`Ready`).  `poll_next` constructs a
fresh `read_line` future on every loop iteration and drops it when it
returns, so when the poll ends in `Pending` the future - and every byte
it had consumed past the last newline - is discarded and the `line`
field is left empty.  This is modelled faithfully below (`readUntil`
returning `.pending` drops the accumulated bytes).
-/

set_option maxRecDepth 4000

namespace AcpidPlug

/-- Codepoints with the Unicode `White_Space` property, which is what
Rust's `char::is_whitespace` (used by `str::trim`) tests. -/
def rustWsCodes : List Nat :=
  [0x09, 0x0A, 0x0B, 0x0C, 0x0D, 0x20, 0x85, 0xA0, 0x1680,
   0x2000, 0x2001, 0x2002, 0x2003, 0x2004, 0x2005, 0x2006, 0x2007,
   0x2008, 0x2009, 0x200A, 0x2028, 0x2029, 0x202F, 0x205F, 0x3000]

/-- Model of Rust `char::is_whitespace`. -/
def rustIsWhitespace (c : Char) : Bool := rustWsCodes.contains c.toNat

/-- Model of Rust `str::trim_start`. -/
def trimStart (l : List Char) : List Char := l.dropWhile rustIsWhitespace

/-- Model of Rust `str::trim_end`. -/
def trimEnd (l : List Char) : List Char := (l.reverse.dropWhile rustIsWhitespace).reverse

/-- Model of Rust `str::trim`: strip whitespace from both ends. -/
def rustTrim (l : List Char) : List Char := trimStart (trimEnd l)

/-- The literal prefix `"ac_adapter"` tested by `poll_next`. -/
def acAdapterL : List Char := "ac_adapter".data

/-- The literal `"Discharging"` tested by `with_socket`. -/
def dischargingL : List Char := "Discharging".data

/-- Model of Rust `str::ends_with(c : char)`: the last character equals `c`. -/
def endsWith (l : List Char) (c : Char) : Bool := l.getLast? == some c

/-- The `Event` enum of the crate. -/
inductive Event where
  | Plugged
  | Unplugged
  deriving DecidableEq

/-- Abstraction of `std::io::Error` values relevant to the spec: the kind
is all the code ever inspects (and in fact it inspects none). -/
inductive IoErr where
  | notFound
  | permissionDenied
  | other
  deriving DecidableEq

/-- Outcome of one underlying `poll_read` on the unix socket, as seen by
the `BufReader` when it refills: a (non-empty) chunk of bytes, a
zero-byte read (peer closed), an I/O error, or no data yet. -/
inductive ReadResult where
  | chunk (data : List Char)
  | eof
  | pending
  | err (e : IoErr)
  deriving DecidableEq

/-- Result of polling one freshly created `read_line` future once, as
`poll_next` does on each loop iteration.
`ok read line bufv input`: the future completed; `read` is the number of
characters appended during this call, `line` is the full contents written
back to the caller's string, `bufv` the bytes left buffered in the
`BufReader`, `input` the remaining schedule.
`err e line bufv input`: the underlying read failed; `read_line` writes
the accumulated buffer back to the string (`truncate_on_io_error` is
false for `read_line`).
`pending input`: the underlying read returned `Poll::Pending`; the
future is dropped by `poll_next`, so all accumulated bytes are lost and
the caller's string stays empty (it was `mem::take`n at construction). -/
inductive ReadOut where
  | pending (input : List ReadResult)
  | ok (read : Nat) (line : List Char) (bufv : List Char) (input : List ReadResult)
  | err (e : IoErr) (line : List Char) (bufv : List Char) (input : List ReadResult)
  deriving DecidableEq

/-- Split a character list at the first newline, keeping the newline in
the first component; `none` when there is no newline.  This is the
`memchr(b..., available)` step of tokio's `read_until_internal`. -/
def breakNl : List Char → Option (List Char × List Char)
  | [] => none
  | c :: cs =>
    if c = '\n' then some ([c], cs)
    else
      match breakNl cs with
      | some (pre, post) => some (c :: pre, post)
      | none => none

/-- The loop of tokio's `read_until_internal` once the `BufReader`'s
buffer is empty: each iteration refills from the underlying stream
(popping one schedule entry) and consumes up to the first newline.
`bytes` is the future's accumulator, `read` the count appended so far.
An empty schedule behaves like a closed peer (every read returns 0). -/
def readUntilGo : List ReadResult → List Char → Nat → ReadOut
  | [], bytes, read => .ok read bytes [] []
  | .pending :: rest, _, _ => .pending rest
  | .eof :: rest, bytes, read => .ok read bytes [] rest
  | .err e :: rest, bytes, _ => .err e bytes [] rest
  | .chunk d :: rest, bytes, read =>
    if d.isEmpty then .ok read bytes [] rest
    else
      match breakNl d with
      | some (pre, post) => .ok (read + pre.length) (bytes ++ pre) post rest
      | none => readUntilGo rest (bytes ++ d) (read + d.length)

/-- One poll of a freshly created `read_line` future: first drain the
`BufReader`'s buffered bytes `bufv`, then refill from the schedule. -/
def readUntil (bufv : List Char) (input : List ReadResult) (bytes : List Char)
    (read : Nat) : ReadOut :=
  match bufv with
  | [] => readUntilGo input bytes read
  | _ :: _ =>
    match breakNl bufv with
    | some (pre, post) => .ok (read + pre.length) (bytes ++ pre) post input
    | none => readUntilGo input (bytes ++ bufv) (read + bufv.length)

/-- The state of an `AcPlugEvents` value together with its environment:
`line` is the `line: String` field, `bufv` the bytes buffered inside the
`BufReader`, `input` the schedule of outcomes the unix socket will
produce. -/
structure AcPlug where
  plugged : Bool
  line : List Char
  bufv : List Char
  input : List ReadResult
  deriving DecidableEq

/-- Outcome of one call to `poll_next`: `pending` is `Poll::Pending`,
`done` is `Ready(None)`, `event e` is `Ready(Some(Ok(e)))`, `error e` is
`Ready(Some(Err(e)))`. -/
inductive PollOut where
  | pending
  | done
  | event (e : Event)
  | error (e : IoErr)
  deriving DecidableEq

/-- The body of `<AcPlugEvents as Stream>::poll_next`, with the `loop`
unrolled through a fuel parameter (`none` means the fuel ran out before
the loop returned).  Each iteration polls a fresh `read_line` future
(`readUntil`), then: a zero-byte read yields `Ready(None)`; otherwise
the first `read` characters of the line are trimmed and tested against
the `ac_adapter` prefix and the `0`/`1` suffix, emitting at most one
edge-triggered event; non-matching or redundant lines clear the buffer
and loop. -/
def pollNextFuel : Nat → AcPlug → Option (PollOut × AcPlug)
  | 0, _ => none
  | f + 1, s =>
    match readUntil s.bufv s.input s.line 0 with
    | .pending input1 => some (.pending, ⟨s.plugged, [], [], input1⟩)
    | .err e lineOut bufv1 input1 => some (.error e, ⟨s.plugged, lineOut, bufv1, input1⟩)
    | .ok read lineFull bufv1 input1 =>
      if read = 0 then some (.done, ⟨s.plugged, lineFull, bufv1, input1⟩)
      else
        let t := rustTrim (lineFull.take read)
        if acAdapterL.isPrefixOf t then
          if s.plugged then
            if endsWith t '0' then
              some (.event .Unplugged, ⟨false, [], bufv1, input1⟩)
            else pollNextFuel f ⟨s.plugged, [], bufv1, input1⟩
          else if endsWith t '1' then
            some (.event .Plugged, ⟨true, [], bufv1, input1⟩)
          else pollNextFuel f ⟨s.plugged, [], bufv1, input1⟩
        else pollNextFuel f ⟨s.plugged, [], bufv1, input1⟩

/-- Size of the remaining schedule in characters, counting one extra per
entry: an upper bound on the `poll_next` loop iterations left. -/
def inputSize : List ReadResult → Nat
  | [] => 0
  | .chunk d :: rest => d.length + 1 + inputSize rest
  | .eof :: rest => 1 + inputSize rest
  | .pending :: rest => 1 + inputSize rest
  | .err _ :: rest => 1 + inputSize rest

/-- Fuel sufficient for `pollNextFuel` to return (proved below). -/
def pollFuel (s : AcPlug) : Nat := s.bufv.length + inputSize s.input + 1

/-- One call to `poll_next`, with enough fuel for the loop to finish. -/
def poll_next (s : AcPlug) : Option (PollOut × AcPlug) := pollNextFuel (pollFuel s) s

/-- Polarity of an event: `Plugged` is `true`. -/
def pol : Event → Bool
  | .Plugged => true
  | .Unplugged => false

/-- Polarity of the last event of a list, or the seed `b` when empty. -/
def lastPol (b : Bool) : List Event → Bool
  | [] => b
  | e :: rest => lastPol (pol e) rest

/-- Every event's polarity differs from the running polarity seeded by
`b`: the list strictly alternates and starts opposite to `b`. -/
def altFrom (b : Bool) : List Event → Bool
  | [] => true
  | e :: rest => (pol e != b) && altFrom (pol e) rest

/-- A driver run: keep calling `poll_next`, collecting emitted events,
continuing through `pending` and error items (as the crate's example
consumer does) and stopping at end of stream. -/
def runFuel : Nat → AcPlug → List Event × AcPlug
  | 0, s => ([], s)
  | f + 1, s =>
    match pollNextFuel (pollFuel s) s with
    | none => ([], s)
    | some (.done, s1) => ([], s1)
    | some (.pending, s1) => runFuel f s1
    | some (.error _, s1) => runFuel f s1
    | some (.event e, s1) =>
      let r := runFuel f s1
      (e :: r.1, r.2)

/-- The status text resolved by `with_socket`: the first read
(`BAT1/status`) if it succeeded, otherwise the second (`BAT0/status`),
whose error propagates through `?`. -/
def bootStatus (bat1 bat0 : Except IoErr (List Char)) : Except IoErr (List Char) :=
  match bat1 with
  | .ok s => .ok s
  | .error _ => bat0

/-- The `plugged` field computed by `with_socket`:
`status.trim() != "Discharging"`. -/
def bootPlugged (bat1 bat0 : Except IoErr (List Char)) : Except IoErr Bool :=
  match bootStatus bat1 bat0 with
  | .ok status => .ok (rustTrim status != dischargingL)
  | .error e => .error e

/-! Helper lemmas about the line splitter and trimming. -/

theorem breakNl_append (s t : List Char) (h : '\n' ∉ s) :
    breakNl (s ++ '\n' :: t) = some (s ++ ['\n'], t) := by
  induction s with
  | nil => simp [breakNl]
  | cons c cs ih =>
    have hc : ¬ c = '\n' := by
      intro hc
      exact h (by simp [hc])
    have hcs : '\n' ∉ cs := fun hm => h (List.mem_cons_of_mem _ hm)
    simp [breakNl, hc, ih hcs]

theorem breakNl_parts : ∀ (l pre post : List Char),
    breakNl l = some (pre, post) → pre ++ post = l := by
  intro l
  induction l with
  | nil =>
    intro pre post h
    simp [breakNl] at h
  | cons c cs ih =>
    intro pre post h
    by_cases hc : c = '\n'
    · simp [breakNl, hc] at h
      obtain ⟨h1, h2⟩ := h
      subst h1
      subst h2
      simp [hc]
    · cases hb : breakNl cs with
      | none => simp [breakNl, hc, hb] at h
      | some pp =>
        obtain ⟨p1, p2⟩ := pp
        simp [breakNl, hc, hb] at h
        obtain ⟨h1, h2⟩ := h
        subst h1
        subst h2
        have hcs := ih p1 p2 hb
        simp [hcs]

theorem trimEnd_append_ws (s : List Char) (c : Char) (h : rustIsWhitespace c = true) :
    trimEnd (s ++ [c]) = trimEnd s := by
  simp [trimEnd, List.dropWhile, h]

theorem rustTrim_newline (s : List Char) : rustTrim (s ++ ['\n']) = rustTrim s := by
  have h : rustIsWhitespace '\n' = true := by decide
  simp [rustTrim, trimEnd_append_ws s '\n' h]

/-! Helper lemmas: the loop inside `poll_next` makes progress, so the
fuel `pollFuel` always suffices. -/

theorem readUntilGo_ok_le : ∀ (input : List ReadResult) (bytes : List Char)
    (read r : Nat) (lf b1 : List Char) (i1 : List ReadResult),
    readUntilGo input bytes read = .ok r lf b1 i1 →
    b1.length + inputSize i1 + r ≤ inputSize input + read := by
  intro input
  induction input with
  | nil =>
    intro bytes read r lf b1 i1 h
    simp [readUntilGo] at h
    obtain ⟨h1, _, h3, h4⟩ := h
    subst h1; subst h3; subst h4
    simp [inputSize]
  | cons entry rest ih =>
    intro bytes read r lf b1 i1 h
    cases entry with
    | pending => simp [readUntilGo] at h
    | eof =>
      simp [readUntilGo] at h
      obtain ⟨h1, _, h3, h4⟩ := h
      subst h1; subst h3; subst h4
      simp [inputSize]
    | err e => simp [readUntilGo] at h
    | chunk d =>
      by_cases hd : d.isEmpty
      · simp [readUntilGo, hd] at h
        obtain ⟨h1, _, h3, h4⟩ := h
        subst h1; subst h3; subst h4
        simp only [inputSize, List.length_nil]
        omega
      · cases hb : breakNl d with
        | some pp =>
          obtain ⟨p1, p2⟩ := pp
          simp [readUntilGo, hd, hb] at h
          obtain ⟨h1, _, h3, h4⟩ := h
          subst h1; subst h3; subst h4
          have hparts := breakNl_parts d p1 p2 hb
          have hlen : p1.length + p2.length = d.length := by
            rw [← hparts]; simp
          simp only [inputSize]
          omega
        | none =>
          simp [readUntilGo, hd, hb] at h
          have := ih (bytes ++ d) (read + d.length) r lf b1 i1 h
          simp only [inputSize]
          omega

theorem readUntil_ok_le (bufv : List Char) (input : List ReadResult)
    (bytes : List Char) (read r : Nat) (lf b1 : List Char) (i1 : List ReadResult)
    (h : readUntil bufv input bytes read = .ok r lf b1 i1) :
    b1.length + inputSize i1 + r ≤ bufv.length + inputSize input + read := by
  cases bufv with
  | nil =>
    have := readUntilGo_ok_le input bytes read r lf b1 i1 (by simpa [readUntil] using h)
    simpa using this
  | cons c cs =>
    cases hb : breakNl (c :: cs) with
    | some pp =>
      obtain ⟨p1, p2⟩ := pp
      simp [readUntil, hb] at h
      obtain ⟨h1, _, h3, h4⟩ := h
      subst h1; subst h3; subst h4
      have hparts := breakNl_parts (c :: cs) p1 p2 hb
      have hlen : p1.length + p2.length = (c :: cs).length := by
        rw [← hparts]; simp
      omega
    | none =>
      simp [readUntil, hb] at h
      have := readUntilGo_ok_le input (bytes ++ c :: cs) (read + (c :: cs).length)
        r lf b1 i1 h
      omega

theorem pollNextFuel_total : ∀ (f : Nat) (s : AcPlug),
    s.bufv.length + inputSize s.input < f → (pollNextFuel f s).isSome = true := by
  intro f
  induction f with
  | zero => intro s h; omega
  | succ f ih =>
    intro s h
    cases hr : readUntil s.bufv s.input s.line 0 with
    | pending i1 => simp [pollNextFuel, hr]
    | err e lo b1 i1 => simp [pollNextFuel, hr]
    | ok r lf b1 i1 =>
      by_cases h0 : r = 0
      · simp [pollNextFuel, hr, h0]
      · have hle := readUntil_ok_le s.bufv s.input s.line 0 r lf b1 i1 hr
        have hlt : b1.length + inputSize i1 < f := by omega
        simp only [pollNextFuel, hr, h0, if_false]
        by_cases hp : acAdapterL.isPrefixOf (rustTrim (lf.take r)) = true
        · by_cases hpl : s.plugged = true
          · by_cases h0e : endsWith (rustTrim (lf.take r)) '0' = true
            · simp [hp, hpl, h0e]
            · simpa [hp, hpl, h0e] using ih ⟨s.plugged, [], b1, i1⟩ hlt
          · have hpl2 : s.plugged = false := by simpa using hpl
            by_cases h1e : endsWith (rustTrim (lf.take r)) '1' = true
            · simp [hp, hpl2, h1e]
            · simpa [hp, hpl2, h1e] using ih ⟨s.plugged, [], b1, i1⟩ hlt
        · simpa [hp] using ih ⟨s.plugged, [], b1, i1⟩ hlt

/-! Helper lemmas: how one `poll_next` call moves the `plugged` state. -/

theorem pollNextFuel_event : ∀ (f : Nat) (s : AcPlug) (e : Event) (s1 : AcPlug),
    pollNextFuel f s = some (.event e, s1) →
    s.plugged = !(pol e) ∧ s1.plugged = pol e := by
  intro f
  induction f with
  | zero => intro s e s1 h; simp [pollNextFuel] at h
  | succ f ih =>
    intro s e s1 h
    cases hr : readUntil s.bufv s.input s.line 0 with
    | pending i1 => simp [pollNextFuel, hr] at h
    | err e2 lo b1 i1 => simp [pollNextFuel, hr] at h
    | ok r lf b1 i1 =>
      by_cases h0 : r = 0
      · simp [pollNextFuel, hr, h0] at h
      · simp only [pollNextFuel, hr, h0, if_false] at h
        by_cases hp : acAdapterL.isPrefixOf (rustTrim (lf.take r)) = true
        · by_cases hpl : s.plugged = true
          · by_cases h0e : endsWith (rustTrim (lf.take r)) '0' = true
            · simp [hp, hpl, h0e] at h
              obtain ⟨he, hs⟩ := h
              subst he
              subst hs
              simp [pol, hpl]
            · simp only [hp, hpl, h0e, if_true, if_false, Bool.false_eq_true] at h
              have := ih ⟨true, [], b1, i1⟩ e s1 h
              simpa [hpl] using this
          · have hpl2 : s.plugged = false := by simpa using hpl
            by_cases h1e : endsWith (rustTrim (lf.take r)) '1' = true
            · simp [hp, hpl2, h1e] at h
              obtain ⟨he, hs⟩ := h
              subst he
              subst hs
              simp [pol, hpl2]
            · simp only [hp, hpl2, h1e, if_true, if_false, Bool.false_eq_true] at h
              have := ih ⟨false, [], b1, i1⟩ e s1 h
              simpa [hpl2] using this
        · simp only [hp, if_false, Bool.false_eq_true] at h
          have := ih ⟨s.plugged, [], b1, i1⟩ e s1 h
          simpa using this

theorem pollNextFuel_plugged : ∀ (f : Nat) (s : AcPlug) (o : PollOut) (s1 : AcPlug),
    pollNextFuel f s = some (o, s1) →
    s1.plugged = (match o with
      | .event e => pol e
      | _ => s.plugged) := by
  intro f
  induction f with
  | zero => intro s o s1 h; simp [pollNextFuel] at h
  | succ f ih =>
    intro s o s1 h
    cases hr : readUntil s.bufv s.input s.line 0 with
    | pending i1 =>
      simp [pollNextFuel, hr] at h
      obtain ⟨ho, hs⟩ := h
      subst ho
      subst hs
      rfl
    | err e2 lo b1 i1 =>
      simp [pollNextFuel, hr] at h
      obtain ⟨ho, hs⟩ := h
      subst ho
      subst hs
      rfl
    | ok r lf b1 i1 =>
      by_cases h0 : r = 0
      · simp [pollNextFuel, hr, h0] at h
        obtain ⟨ho, hs⟩ := h
        subst ho
        subst hs
        rfl
      · simp only [pollNextFuel, hr, h0, if_false] at h
        by_cases hp : acAdapterL.isPrefixOf (rustTrim (lf.take r)) = true
        · by_cases hpl : s.plugged = true
          · by_cases h0e : endsWith (rustTrim (lf.take r)) '0' = true
            · simp [hp, hpl, h0e] at h
              obtain ⟨ho, hs⟩ := h
              subst ho
              subst hs
              rfl
            · simp only [hp, hpl, h0e, if_true, if_false, Bool.false_eq_true] at h
              have := ih ⟨true, [], b1, i1⟩ o s1 h
              simpa [hpl] using this
          · have hpl2 : s.plugged = false := by simpa using hpl
            by_cases h1e : endsWith (rustTrim (lf.take r)) '1' = true
            · simp [hp, hpl2, h1e] at h
              obtain ⟨ho, hs⟩ := h
              subst ho
              subst hs
              simp [pol, hpl2]
            · simp only [hp, hpl2, h1e, if_true, if_false, Bool.false_eq_true] at h
              have := ih ⟨false, [], b1, i1⟩ o s1 h
              simpa [hpl2] using this
        · simp only [hp, if_false, Bool.false_eq_true] at h
          have := ih ⟨s.plugged, [], b1, i1⟩ o s1 h
          simpa using this

/-- C10: for every finite amount of input available from the connection, a
single advance terminates: the skip-and-loop of `poll_next` over
non-matching or redundant lines returns (an event, end-of-stream, an
error, or pending) within `pollFuel` iterations, i.e. it cannot run
forever on finite input. -/
theorem c10_advance_terminates : ∀ (s : AcPlug), (poll_next s).isSome = true := by
  intro s
  exact pollNextFuel_total (pollFuel s) s (by simp only [pollFuel]; omega)

/-- C2: in any run of the engine, from any initial state and any input
schedule, the `plugged` state always equals the polarity of the last
emitted event (or the initial value when no event was emitted yet), and
the emitted event sequence strictly alternates (each event's polarity
differs from the running polarity, so no two consecutive events agree). -/
theorem c2_state_tracks_events_and_alternates : ∀ (fuel : Nat) (s : AcPlug),
    altFrom s.plugged (runFuel fuel s).1 = true ∧
    (runFuel fuel s).2.plugged = lastPol s.plugged (runFuel fuel s).1 := by
  intro fuel
  induction fuel with
  | zero => intro s; simp [runFuel, altFrom, lastPol]
  | succ f ih =>
    intro s
    cases hp : pollNextFuel (pollFuel s) s with
    | none => simp [runFuel, hp, altFrom, lastPol]
    | some pr =>
      obtain ⟨o, s1⟩ := pr
      cases o with
      | pending =>
        have h1 : s1.plugged = s.plugged := pollNextFuel_plugged _ _ _ _ hp
        simp only [runFuel, hp]
        rw [← h1]
        exact ih s1
      | done =>
        have h1 : s1.plugged = s.plugged := pollNextFuel_plugged _ _ _ _ hp
        simp [runFuel, hp, altFrom, lastPol, h1]
      | error e2 =>
        have h1 : s1.plugged = s.plugged := pollNextFuel_plugged _ _ _ _ hp
        simp only [runFuel, hp]
        rw [← h1]
        exact ih s1
      | event e =>
        have hold := (pollNextFuel_event _ _ _ _ hp).1
        have hnew : s1.plugged = pol e := (pollNextFuel_event _ _ _ _ hp).2
        have hrun := ih s1
        simp only [runFuel, hp]
        constructor
        · have hx : (pol e != s.plugged) = true := by
            rw [hold]; cases hpe : pol e <;> rfl
          have hy : altFrom (pol e) (runFuel f s1).1 = true := by
            rw [← hnew]; exact hrun.1
          simp [altFrom, hx, hy]
        · have h2 := hrun.2
          rw [hnew] at h2
          simpa [lastPol] using h2

/-- C9: when the underlying read fails with an I/O error, `poll_next`
yields exactly that error as the item's value, and the `plugged` state is
never changed by an advance that returns an error item. -/
theorem c9_error_item_keeps_plugged :
    (∀ (f : Nat) (s : AcPlug) (e : IoErr) (s1 : AcPlug),
        pollNextFuel f s = some (.error e, s1) → s1.plugged = s.plugged) ∧
    (∀ (p : Bool) (line : List Char) (e : IoErr) (rest : List ReadResult),
        poll_next ⟨p, line, [], .err e :: rest⟩ =
          some (.error e, ⟨p, line, [], rest⟩)) := by
  constructor
  · intro f s e s1 h
    exact pollNextFuel_plugged f s (.error e) s1 h
  · intro p line e rest
    simp only [poll_next, pollFuel, pollNextFuel]
    simp [readUntil, readUntilGo]

/-- C9 witness: a concrete advance that returns an error item, at which
the theorem's hypothesis is discharged by evaluation. -/
theorem c9_error_item_keeps_plugged_witness :
    (⟨true, [], [], []⟩ : AcPlug).plugged = (⟨true, [], [], [.err .other]⟩ : AcPlug).plugged :=
  c9_error_item_keeps_plugged.1 1 ⟨true, [], [], [.err .other]⟩ .other
    ⟨true, [], [], []⟩ (by decide)

/-! Helper lemmas: symbolic evaluation of one advance on a single
complete line delivered in one chunk. -/

theorem isEmpty_append_nl (w : List Char) : (w ++ ['\n']).isEmpty = false := by
  cases w <;> rfl

theorem take_len_append_nl (w : List Char) :
    (w ++ ['\n']).take (w.length + 1) = w ++ ['\n'] := by
  have h : (w ++ ['\n']).length = w.length + 1 := by simp
  rw [← h, List.take_length]

theorem readUntil_one_line (w : List Char) (hnl : '\n' ∉ w) (rest : List ReadResult)
    (bytes : List Char) :
    readUntil [] (.chunk (w ++ ['\n']) :: rest) bytes 0 =
      .ok (w.length + 1) (bytes ++ (w ++ ['\n'])) [] rest := by
  have hb := breakNl_append w [] hnl
  simp [readUntil, readUntilGo, isEmpty_append_nl, hb]

theorem pollNextFuel_line_unplug (f : Nat) (w : List Char) (rest : List ReadResult)
    (hnl : '\n' ∉ w) (hpre : acAdapterL.isPrefixOf (rustTrim w) = true)
    (h0 : endsWith (rustTrim w) '0' = true) :
    pollNextFuel (f + 1) ⟨true, [], [], .chunk (w ++ ['\n']) :: rest⟩ =
      some (.event .Unplugged, ⟨false, [], [], rest⟩) := by
  simp only [pollNextFuel]
  rw [readUntil_one_line w hnl rest []]
  simp [take_len_append_nl, rustTrim_newline, hpre, h0]

theorem pollNextFuel_line_plug (f : Nat) (w : List Char) (rest : List ReadResult)
    (hnl : '\n' ∉ w) (hpre : acAdapterL.isPrefixOf (rustTrim w) = true)
    (h1 : endsWith (rustTrim w) '1' = true) :
    pollNextFuel (f + 1) ⟨false, [], [], .chunk (w ++ ['\n']) :: rest⟩ =
      some (.event .Plugged, ⟨true, [], [], rest⟩) := by
  simp only [pollNextFuel]
  rw [readUntil_one_line w hnl rest []]
  simp [take_len_append_nl, rustTrim_newline, hpre, h1]

theorem pollNextFuel_line_skip (f : Nat) (p : Bool) (w : List Char)
    (rest : List ReadResult) (hnl : '\n' ∉ w)
    (hns : (acAdapterL.isPrefixOf (rustTrim w) &&
            ((p && endsWith (rustTrim w) '0') || (!p && endsWith (rustTrim w) '1'))) = false) :
    pollNextFuel (f + 1) ⟨p, [], [], .chunk (w ++ ['\n']) :: rest⟩ =
      pollNextFuel f ⟨p, [], [], rest⟩ := by
  simp only [pollNextFuel]
  rw [readUntil_one_line w hnl rest []]
  by_cases hpre : acAdapterL.isPrefixOf (rustTrim w) = true
  · by_cases hp : p = true
    · simp [hpre, hp] at hns
      simp [take_len_append_nl, rustTrim_newline, hpre, hp, hns]
    · have hp2 : p = false := by simpa using hp
      simp [hpre, hp2] at hns
      simp [take_len_append_nl, rustTrim_newline, hpre, hp2, hns]
  · have hpre2 : acAdapterL.isPrefixOf (rustTrim w) = false := by
      cases hx : acAdapterL.isPrefixOf (rustTrim w) with
      | false => rfl
      | true => exact absurd hx hpre
    simp [take_len_append_nl, rustTrim_newline, hpre2]

/-- C1: for every complete line (no interior newline) whose trimmed text
starts with `ac_adapter`: from the plugged state, a text ending in the
character `0` makes the advance emit `Event::Unplugged` and the state
becomes unplugged; from the unplugged state, a text ending in `1` makes
it emit `Event::Plugged` and the state becomes plugged. -/
theorem c1_matching_line_transitions (w : List Char) (hnl : '\n' ∉ w)
    (hpre : acAdapterL.isPrefixOf (rustTrim w) = true) :
    (endsWith (rustTrim w) '0' = true →
       poll_next ⟨true, [], [], [.chunk (w ++ ['\n'])]⟩ =
         some (.event .Unplugged, ⟨false, [], [], []⟩)) ∧
    (endsWith (rustTrim w) '1' = true →
       poll_next ⟨false, [], [], [.chunk (w ++ ['\n'])]⟩ =
         some (.event .Plugged, ⟨true, [], [], []⟩)) := by
  constructor
  · intro h0
    have hf : pollFuel ⟨true, [], [], [.chunk (w ++ ['\n'])]⟩ = (w.length + 2) + 1 := by
      simp only [pollFuel, inputSize, List.length_append, List.length_nil, List.length_cons]
      omega
    simp only [poll_next]
    rw [hf]
    exact pollNextFuel_line_unplug (w.length + 2) w [] hnl hpre h0
  · intro h1
    have hf : pollFuel ⟨false, [], [], [.chunk (w ++ ['\n'])]⟩ = (w.length + 2) + 1 := by
      simp only [pollFuel, inputSize, List.length_append, List.length_nil, List.length_cons]
      omega
    simp only [poll_next]
    rw [hf]
    exact pollNextFuel_line_plug (w.length + 2) w [] hnl hpre h1

/-- C1 witness: the line `ac_adapter AC 0` from the plugged state emits
`Event::Unplugged`, with every hypothesis discharged by evaluation. -/
theorem c1_matching_line_transitions_witness :
    poll_next ⟨true, [], [], [.chunk ("ac_adapter AC 0".data ++ ['\n'])]⟩ =
      some (.event .Unplugged, ⟨false, [], [], []⟩) :=
  (c1_matching_line_transitions "ac_adapter AC 0".data (by decide) (by decide)).1
    (by decide)

/-- C6: for every initial state, a complete line whose trimmed text does
not start with `ac_adapter`, or matches but does not represent a change
(ends in `1` while plugged, ends in `0` while unplugged, or ends in
neither digit), produces no event: the advance skips it, suspends on the
next read, and the `plugged` state is left at its initial value. -/
theorem c6_no_change_no_event (p : Bool) (w : List Char) (hnl : '\n' ∉ w)
    (hns : (acAdapterL.isPrefixOf (rustTrim w) &&
            ((p && endsWith (rustTrim w) '0') || (!p && endsWith (rustTrim w) '1'))) = false) :
    poll_next ⟨p, [], [], [.chunk (w ++ ['\n']), .pending]⟩ =
      some (.pending, ⟨p, [], [], []⟩) := by
  have hf : pollFuel ⟨p, [], [], [.chunk (w ++ ['\n']), .pending]⟩ = (w.length + 3) + 1 := by
    simp only [pollFuel, inputSize, List.length_append, List.length_nil, List.length_cons]
    omega
  simp only [poll_next]
  rw [hf, pollNextFuel_line_skip (w.length + 3) p w [.pending] hnl hns]
  rw [show w.length + 3 = (w.length + 2) + 1 from rfl]
  simp [pollNextFuel, readUntil, readUntilGo]

/-- C6 witness: a non-matching line and a redundant matching line, each
leaving the state untouched and emitting nothing. -/
theorem c6_no_change_no_event_witness :
    poll_next ⟨true, [], [], [.chunk ("battery BAT0 00000080".data ++ ['\n']), .pending]⟩ =
      some (.pending, ⟨true, [], [], []⟩) ∧
    poll_next ⟨true, [], [], [.chunk ("ac_adapter AC 1".data ++ ['\n']), .pending]⟩ =
      some (.pending, ⟨true, [], [], []⟩) :=
  ⟨c6_no_change_no_event true "battery BAT0 00000080".data (by decide) (by decide),
   c6_no_change_no_event true "ac_adapter AC 1".data (by decide) (by decide)⟩

/-! Helper lemmas: advances at end of stream. -/

theorem pollNextFuel_eof (f : Nat) (p : Bool) (line : List Char) (rest : List ReadResult) :
    pollNextFuel (f + 1) ⟨p, line, [], .eof :: rest⟩ = some (.done, ⟨p, line, [], rest⟩) := by
  simp [pollNextFuel, readUntil, readUntilGo]

theorem pollNextFuel_nil_input (f : Nat) (p : Bool) (line : List Char) :
    pollNextFuel (f + 1) ⟨p, line, [], []⟩ = some (.done, ⟨p, line, [], []⟩) := by
  simp [pollNextFuel, readUntil, readUntilGo]

/-- C8: a zero-byte underlying read (peer closed the stream) makes the
advance complete the sequence: `Ready(None)`, no event and no error, with
`plugged` untouched; and on a closed stream (every read reporting zero
bytes) no run of any length ever produces an event again. -/
theorem c8_zero_read_ends_stream :
    (∀ (p : Bool) (line : List Char) (rest : List ReadResult),
        poll_next ⟨p, line, [], .eof :: rest⟩ = some (.done, ⟨p, line, [], rest⟩)) ∧
    (∀ (n k : Nat) (p : Bool) (line : List Char),
        (runFuel n ⟨p, line, [], List.replicate k .eof⟩).1 = []) := by
  constructor
  · intro p line rest
    simp only [poll_next, pollFuel]
    exact pollNextFuel_eof _ p line rest
  · intro n k p line
    cases n with
    | zero => simp [runFuel]
    | succ n =>
      have hpoll : pollNextFuel (pollFuel ⟨p, line, [], List.replicate k .eof⟩)
          ⟨p, line, [], List.replicate k .eof⟩ =
          some (.done, ⟨p, line, [], List.replicate (k - 1) .eof⟩) := by
        cases k with
        | zero =>
          simp only [List.replicate_zero, pollFuel]
          exact pollNextFuel_nil_input _ p line
        | succ k =>
          simp only [List.replicate_succ, pollFuel]
          simpa using pollNextFuel_eof _ p line (List.replicate k .eof)
      simp [runFuel, hpoll]

/-- C7: the bootstrap resolver computes
`plugged = (trimmed status != "Discharging")` (a case-sensitive
comparison on the whitespace-trimmed text); concretely, primary content
`"Discharging\n"` resolves to unplugged, `"Charging"` to plugged, and a
missing primary with secondary content `"Full"` to plugged. -/
theorem c7_bootstrap_state :
    (∀ (s : List Char) (b0 : Except IoErr (List Char)),
        bootPlugged (.ok s) b0 = .ok (rustTrim s != dischargingL)) ∧
    bootPlugged (.ok "Discharging\n".data) (.error .notFound) = .ok false ∧
    bootPlugged (.ok "Charging".data) (.error .notFound) = .ok true ∧
    bootPlugged (.error .notFound) (.ok "Full".data) = .ok true :=
  ⟨fun _ _ => rfl, rfl, rfl, rfl⟩

/-- C3 counterexample: a primary read failing with permission denied — not
a missing-file error — does not propagate to the caller: `with_socket`
matches `Err(_)` and falls back to the secondary attribute, which here
succeeds, so the bootstrap returns a state instead of the error. -/
theorem c3_counterexample_nonmissing_error_not_propagated :
    bootPlugged (.error .permissionDenied) (.ok "Charging".data) = .ok true ∧
    (Except.error IoErr.permissionDenied : Except IoErr Bool) ≠ .ok true := by
  constructor
  · rfl
  · intro h
    exact Except.noConfusion h

/-- C3 amended: during bootstrap the fallback to the secondary status
attribute happens on every primary-read error, not only a not-found one;
an error propagates to the connecting caller only when the secondary read
also fails, and the propagated error is the secondary's. -/
theorem c3_amended_fallback_on_any_error :
    (∀ (e : IoErr) (s : List Char),
        bootPlugged (.error e) (.ok s) = .ok (rustTrim s != dischargingL)) ∧
    (∀ (e e1 : IoErr), bootPlugged (.error e) (.error e1) = .error e1) :=
  ⟨fun _ _ => rfl, fun _ _ => rfl⟩

/-- C4: evaluation of the split-line scenario.  Delivering
`"ac_adapter 1\n"` in one read from the unplugged state emits
`Event::Plugged`; delivering it as `"ac_adap"`, then no data (the first
advance returns pending), then `"ter 1\n"` does not: the pending advance
drops the buffered `"ac_adap"` (the `read_line` future holding it is
dropped and the `line` string was taken), so the retry sees only
`"ter 1"` and the run ends with no event — the two deliveries are not
interpreted identically, refuting the reassembly claim. -/
theorem c4_split_line_not_reassembled :
    poll_next ⟨false, [], [], [.chunk "ac_adapter 1\n".data]⟩ =
      some (.event .Plugged, ⟨true, [], [], []⟩) ∧
    poll_next ⟨false, [], [], [.chunk "ac_adap".data, .pending, .chunk "ter 1\n".data]⟩ =
      some (.pending, ⟨false, [], [], [.chunk "ter 1\n".data]⟩) ∧
    poll_next ⟨false, [], [], [.chunk "ter 1\n".data]⟩ =
      some (.done, ⟨false, [], [], []⟩) := by
  refine ⟨by decide, by decide, by decide⟩

/-- C5: evaluation of the cancelled-advance scenario.  An advance that
consumes the partial line `"ac_adapter"` and then suspends leaves the
engine with an empty `line` buffer — the partial contents are discarded,
not preserved — so the retried advance sees only the remainder `" 0\n"`
and never emits the `Event::Unplugged` that the full line (third
conjunct) produces. -/
theorem c5_cancelled_advance_discards_partial_line :
    poll_next ⟨true, [], [], [.chunk "ac_adapter".data, .pending, .chunk " 0\n".data]⟩ =
      some (.pending, ⟨true, [], [], [.chunk " 0\n".data]⟩) ∧
    poll_next ⟨true, [], [], [.chunk " 0\n".data]⟩ =
      some (.done, ⟨true, [], [], []⟩) ∧
    poll_next ⟨true, [], [], [.chunk "ac_adapter 0\n".data]⟩ =
      some (.event .Unplugged, ⟨false, [], [], []⟩) := by
  refine ⟨by decide, by decide, by decide⟩

end AcpidPlug
